import Mathlib

/-!
Verification of the USTAR de Bruijn graph module (`DBG.cpp`) and the
driver (`ustar.cpp`) against its specification.

Strings are modelled as `List Char`, machine integers as `Nat` with
explicit `% 2^64` where `size_t` wrap-around matters, and fallible code
(`exit`, thrown `std::out_of_range`, undefined behaviour) as `Option`.
`kmer_size` is a `uint32_t` that the CLI parser guarantees positive, so
`k - 1` is ordinary truncated subtraction on `Nat`.
-/

/-- Cardinality of `size_t` (64-bit): `size_t` arithmetic is `% 2^64`. -/
def SIZE_T_CARD : Nat := 2 ^ 64

/-- An outgoing arc of a unitig node: `(forward, successor, to_forward)`. -/
structure arc_t where
  forward : Bool
  successor : Nat
  to_forward : Bool
  deriving DecidableEq, Repr

/-- A unitig node: sequence, stored length field, per-k-mer abundances,
outgoing arcs.  (`average_abundance` and `median_abundance` play no role
in the claims and are omitted.) -/
structure node_t where
  unitig : List Char
  length : Nat
  abundances : List Nat
  arcs : List arc_t
  deriving DecidableEq, Repr

/-- The de Bruijn graph: k-mer size and the dense node table. -/
structure DBG where
  kmer_size : Nat
  nodes : List node_t
  deriving DecidableEq, Repr

/-- Bounds-checked node access, as `nodes.at(v)`: `none` models the thrown
`std::out_of_range` (fatal). -/
def node? (g : DBG) (v : Nat) : Option node_t := g.nodes[v]?

/-- Effectful map over a list in the `Option` monad, used to model loops
whose body may terminate the process. -/
def mapOpt (f : α → Option β) : List α → Option (List β)
  | [] => some []
  | a :: l => (f a).bind fun b => (mapOpt f l).map fun bs => b :: bs

/-- `DBG::reverse_complement`'s `switch`: complement of one nucleotide;
`none` models the `exit(EXIT_FAILURE)` on an unknown character. -/
def complement : Char → Option Char
  | 'A' => some 'T'
  | 'a' => some 'T'
  | 'C' => some 'G'
  | 'c' => some 'G'
  | 'T' => some 'A'
  | 't' => some 'A'
  | 'G' => some 'C'
  | 'g' => some 'C'
  | _ => none

/-- `DBG::reverse_complement`: writes the complement of character `i` at
mirrored position `length - 1 - i`, i.e. reverses the complemented string.
`none` models the fatal exit on any non-nucleotide character. -/
def reverse_complement (s : List Char) : Option (List Char) :=
  (mapOpt complement s).map List.reverse

/-- Spec-level total complement (case-insensitive input, uppercase
output), used to state what `reverse_complement` computes on valid
nucleotide strings. -/
def specComp : Char → Char
  | 'A' => 'T'
  | 'a' => 'T'
  | 'C' => 'G'
  | 'c' => 'G'
  | 'T' => 'A'
  | 't' => 'A'
  | 'G' => 'C'
  | 'g' => 'C'
  | c => c

/-- Spec-level reverse complement. -/
def spec_revcomp (s : List Char) : List Char := (s.map specComp).reverse

/-- A character the `switch` of `reverse_complement` accepts. -/
def isNuc (c : Char) : Bool :=
  c == 'A' || c == 'C' || c == 'G' || c == 'T' ||
  c == 'a' || c == 'c' || c == 'g' || c == 't'

/-- An uppercase nucleotide, the alphabet {A,C,G,T} of the spec. -/
def isNucUpper (c : Char) : Bool :=
  c == 'A' || c == 'C' || c == 'G' || c == 'T'

/-- Every character of the string is a valid nucleotide. -/
def nucOK (s : List Char) : Prop := ∀ c ∈ s, isNuc c = true

lemma complement_eq_specComp (c : Char) (h : isNuc c = true) :
    complement c = some (specComp c) := by
  simp only [isNuc, Bool.or_eq_true, beq_iff_eq] at h
  rcases h with ((((((h | h) | h) | h) | h) | h) | h) | h <;> subst h <;> rfl

lemma mapOpt_complement_eq (s : List Char) (h : nucOK s) :
    mapOpt complement s = some (s.map specComp) := by
  induction s with
  | nil => rfl
  | cons c cs ih =>
    have hc : isNuc c = true := h c (by simp)
    have hcs : nucOK cs := fun x hx => h x (by simp [hx])
    simp [mapOpt, complement_eq_specComp c hc, ih hcs]

lemma reverse_complement_eq (s : List Char) (h : nucOK s) :
    reverse_complement s = some (spec_revcomp s) := by
  simp [reverse_complement, mapOpt_complement_eq s h, spec_revcomp]

lemma isNuc_of_isNucUpper (c : Char) (h : isNucUpper c = true) : isNuc c = true := by
  simp only [isNucUpper, Bool.or_eq_true, beq_iff_eq] at h
  rcases h with ((h | h) | h) | h <;> subst h <;> rfl

lemma isNucUpper_specComp (c : Char) (h : isNuc c = true) :
    isNucUpper (specComp c) = true := by
  simp only [isNuc, Bool.or_eq_true, beq_iff_eq] at h
  rcases h with ((((((h | h) | h) | h) | h) | h) | h) | h <;> subst h <;> rfl

lemma specComp_specComp (c : Char) (h : isNucUpper c = true) :
    specComp (specComp c) = c := by
  simp only [isNucUpper, Bool.or_eq_true, beq_iff_eq] at h
  rcases h with ((h | h) | h) | h <;> subst h <;> rfl

lemma nucOK_spec_revcomp (s : List Char) (h : nucOK s) :
    ∀ c ∈ spec_revcomp s, isNucUpper c = true := by
  intro c hc
  simp only [spec_revcomp, List.mem_reverse, List.mem_map] at hc
  obtain ⟨a, ha, rfl⟩ := hc
  exact isNucUpper_specComp a (h a ha)

lemma spec_revcomp_spec_revcomp (s : List Char)
    (h : ∀ c ∈ s, isNucUpper c = true) : spec_revcomp (spec_revcomp s) = s := by
  simp only [spec_revcomp, List.map_reverse, List.reverse_reverse, List.map_map]
  calc s.map (specComp ∘ specComp) = s.map id := by
        apply List.map_congr_left
        intro a ha
        exact specComp_specComp a (h a ha)
    _ = s := List.map_id s

/-- C7: for any string over the nucleotide alphabet {A,C,G,T},
applying `DBG::reverse_complement` twice gives the original string back
(and in particular neither application hits the fatal-error branch). -/
theorem revcomp_involution (s : List Char)
    (h : ∀ c ∈ s, isNucUpper c = true) :
    (reverse_complement s).bind reverse_complement = some s := by
  have h1 : nucOK s := fun c hc => isNuc_of_isNucUpper c (h c hc)
  rw [reverse_complement_eq s h1, Option.some_bind,
    reverse_complement_eq (spec_revcomp s)
      (fun c hc => isNuc_of_isNucUpper c (nucOK_spec_revcomp s h1 c hc)),
    spec_revcomp_spec_revcomp s h]

/-- C7 witness: the involution evaluated at the concrete string `ACGT`. -/
theorem revcomp_involution_witness :
    (reverse_complement ['A', 'C', 'G', 'T']).bind reverse_complement =
      some ['A', 'C', 'G', 'T'] :=
  revcomp_involution ['A', 'C', 'G', 'T'] (by decide)

/-- Unitig of the node at index `v` (`[]` when out of range); spec-side
accessor used to state properties. -/
def unitigAt (g : DBG) (v : Nat) : List Char :=
  ((g.nodes[v]?).map node_t.unitig).getD []

/-- Abundance vector of the node at index `v` (`[]` when out of range). -/
def abundAt (g : DBG) (v : Nat) : List Nat :=
  ((g.nodes[v]?).map node_t.abundances).getD []

/-- Arc list of the node at index `v` (`[]` when out of range). -/
def arcsAt (g : DBG) (v : Nat) : List arc_t :=
  ((g.nodes[v]?).map node_t.arcs).getD []

/-- The oriented unitig of a traversal step: as stored when `forward`,
reverse-complemented otherwise (spec wording). -/
def oriented (u : List Char) (f : Bool) : List Char :=
  if f then u else spec_revcomp u

/-- The last `m` characters of a string (spec wording). -/
def lastChars (s : List Char) (m : Nat) : List Char := s.drop (s.length - m)

/-- First node of a path, as the seed of `DBG::spell`: the unitig, or its
reverse complement when the step is reversed. -/
def seedStep (g : DBG) (v : Nat) (f : Bool) : Option (List Char) :=
  (node? g v).bind fun n =>
    if f then some n.unitig else reverse_complement n.unitig

/-- Extension of the seed in `DBG::spell` for one subsequent step:
forward appends `unitig.substr(kmer_size - 1)` (the `substr` throws when
`kmer_size - 1` exceeds the length); backward computes the `size_t`
difference `unitig.length() - (kmer_size - 1)` (which wraps below zero),
takes that many leading characters (`substr(0, len)` clamps) and
reverse-complements them. -/
def stepExt (g : DBG) (v : Nat) (f : Bool) : Option (List Char) :=
  (node? g v).bind fun n =>
    if f then
      if g.kmer_size - 1 ≤ n.unitig.length then
        some (n.unitig.drop (g.kmer_size - 1))
      else none
    else
      reverse_complement (n.unitig.take
        ((n.unitig.length + SIZE_T_CARD - (g.kmer_size - 1)) % SIZE_T_CARD))

/-- `DBG::spell`: fatal (`none`) when the two vectors differ in length or
the path is empty; otherwise the seed followed by the per-step
extensions. -/
def spell (g : DBG) (path_nodes : List Nat) (forwards : List Bool) :
    Option (List Char) :=
  if path_nodes.length ≠ forwards.length then none
  else
    match path_nodes, forwards with
    | v :: vs, f :: fs =>
      (seedStep g v f).bind fun seed =>
        (mapOpt (fun p => stepExt g p.1 p.2) (vs.zip fs)).map fun exts =>
          seed ++ exts.flatten
    | _, _ => none

/-- What the spec says one subsequent step contributes: the last
`len(v.unitig) - (k - 1)` characters of the oriented unitig. -/
def spec_ext (g : DBG) (v : Nat) (f : Bool) : List Char :=
  lastChars (oriented (unitigAt g v) f)
    ((unitigAt g v).length - (g.kmer_size - 1))

/-- Spelling as worded by the spec: the first step's oriented unitig
followed by each subsequent step's contribution. -/
def spec_spell (g : DBG) (pn : List Nat) (fw : List Bool) : List Char :=
  match pn, fw with
  | v :: vs, f :: fs =>
    oriented (unitigAt g v) f ++
      ((vs.zip fs).map fun p => spec_ext g p.1 p.2).flatten
  | _, _ => []

/-- Data-model invariant on a node's sequence (spec §3): a nucleotide
string of length ≥ k that fits in a `size_t`. -/
def wfSeq (k : Nat) (n : node_t) : Prop :=
  nucOK n.unitig ∧ k ≤ n.unitig.length ∧ n.unitig.length < SIZE_T_CARD

instance (k : Nat) (n : node_t) : Decidable (wfSeq k n) := by
  unfold wfSeq nucOK; infer_instance

lemma unitigAt_eq (g : DBG) (v : Nat) (n : node_t) (hv : node? g v = some n) :
    unitigAt g v = n.unitig := by
  simp only [node?] at hv
  simp [unitigAt, hv]

lemma spec_revcomp_length (s : List Char) : (spec_revcomp s).length = s.length := by
  simp [spec_revcomp]

lemma stepExt_eq_spec (g : DBG) (v : Nat) (f : Bool) (n : node_t)
    (hv : node? g v = some n) (hn : nucOK n.unitig)
    (hk : g.kmer_size - 1 ≤ n.unitig.length)
    (hsz : n.unitig.length < SIZE_T_CARD) :
    stepExt g v f = some (spec_ext g v f) := by
  have hu : unitigAt g v = n.unitig := unitigAt_eq g v n hv
  cases f with
  | true =>
    simp only [stepExt, hv, Option.some_bind, if_pos hk, if_true]
    simp only [spec_ext, hu, oriented, if_true, lastChars,
      Nat.sub_sub_self hk]
  | false =>
    have hcnt : (n.unitig.length + SIZE_T_CARD - (g.kmer_size - 1)) %
        SIZE_T_CARD = n.unitig.length - (g.kmer_size - 1) := by
      have h1 : n.unitig.length + SIZE_T_CARD - (g.kmer_size - 1) =
          (n.unitig.length - (g.kmer_size - 1)) + SIZE_T_CARD := by omega
      rw [h1, Nat.add_mod_right]
      exact Nat.mod_eq_of_lt (by omega)
    have htake : nucOK (n.unitig.take (n.unitig.length - (g.kmer_size - 1))) :=
      fun c hc => hn c (List.mem_of_mem_take hc)
    simp only [stepExt, hv, Option.some_bind, Bool.false_eq_true, if_false,
      hcnt, reverse_complement_eq _ htake]
    congr 1
    simp only [spec_ext, hu, oriented, Bool.false_eq_true, if_false,
      lastChars, spec_revcomp_length]
    simp only [spec_revcomp, List.map_take, List.reverse_take]
    congr 1
    simp [List.length_map]

lemma mapOpt_stepExt_eq (g : DBG) (l : List (Nat × Bool))
    (h : ∀ p ∈ l, ∃ n, node? g p.1 = some n ∧ wfSeq g.kmer_size n) :
    mapOpt (fun p => stepExt g p.1 p.2) l =
      some (l.map fun p => spec_ext g p.1 p.2) := by
  induction l with
  | nil => rfl
  | cons p ps ih =>
    obtain ⟨n, hv, hn, hk, hsz⟩ := h p (by simp)
    have hk1 : g.kmer_size - 1 ≤ n.unitig.length :=
      le_trans (Nat.sub_le _ _) hk
    rw [mapOpt, stepExt_eq_spec g p.1 p.2 n hv hn hk1 hsz, Option.some_bind,
      ih (fun q hq => h q (by simp [hq]))]
    rfl

lemma seedStep_eq_spec (g : DBG) (v : Nat) (f : Bool) (n : node_t)
    (hv : node? g v = some n) (hn : nucOK n.unitig) :
    seedStep g v f = some (oriented (unitigAt g v) f) := by
  have hu : unitigAt g v = n.unitig := unitigAt_eq g v n hv
  cases f with
  | true => simp [seedStep, hv, oriented, hu]
  | false => simp [seedStep, hv, oriented, hu, reverse_complement_eq _ hn]

/-- `DBG::spell` computes exactly the spec's spelling, for a non-empty
path of equal-length vectors whose node indices are valid and whose
unitigs satisfy the data-model invariant. -/
lemma spell_eq_spec (g : DBG) (pn : List Nat) (fw : List Bool)
    (hlen : pn.length = fw.length) (hne : pn ≠ [])
    (hwf : ∀ v ∈ pn, ∃ n, node? g v = some n ∧ wfSeq g.kmer_size n) :
    spell g pn fw = some (spec_spell g pn fw) := by
  match pn, fw with
  | [], _ => exact absurd rfl hne
  | v :: vs, [] => simp at hlen
  | v :: vs, f :: fs =>
    obtain ⟨n, hv, hn, _, _⟩ := hwf v (by simp)
    have hne2 : ¬((v :: vs).length ≠ (f :: fs).length) := by simp [hlen]
    have htail : ∀ p ∈ vs.zip fs, ∃ n, node? g p.1 = some n ∧
        wfSeq g.kmer_size n := by
      intro p hp
      exact hwf p.1 (by simp [(List.of_mem_zip hp).1])
    rw [spell, if_neg hne2, seedStep_eq_spec g v f n hv hn, Option.some_bind,
      mapOpt_stepExt_eq g (vs.zip fs) htail]
    rfl

/-- C1: for every non-empty path of `(node_index, forward)` steps with
equal-length node and orientation vectors over valid node indices (whose
unitigs satisfy the spec's data-model invariant), `DBG::spell` returns
the string that starts with the first step's oriented unitig and, for
each subsequent step `(v, f)`, appends the last
`len(v.unitig) - (k - 1)` characters of the oriented unitig, where the
oriented unitig is `v.unitig` if `f` and its reverse complement
otherwise. -/
theorem spell_matches_spec (g : DBG) (pn : List Nat) (fw : List Bool)
    (hlen : pn.length = fw.length) (hne : pn ≠ [])
    (hidx : ∀ v ∈ pn, v < g.nodes.length)
    (hwf : ∀ n ∈ g.nodes, wfSeq g.kmer_size n) :
    spell g pn fw = some (spec_spell g pn fw) := by
  apply spell_eq_spec g pn fw hlen hne
  intro v hv
  have h1 : v < g.nodes.length := hidx v hv
  exact ⟨g.nodes[v], by simp [node?, List.getElem?_eq_getElem h1],
    hwf _ (List.getElem_mem h1)⟩

/-- Two-node graph realizing the spec's reverse-complement extension
scenario (k = 3). -/
def gW1 : DBG :=
  ⟨3, [⟨['A', 'C', 'G', 'T', 'A'], 5, [2, 2, 1], [⟨true, 1, false⟩]⟩,
       ⟨['G', 'T', 'A', 'C', 'G'], 5, [1, 1, 1], []⟩]⟩

/-- C1 witness: the path `[(0,+),(1,-)]` on `gW1` spells
`ACGTA ++ revcomp(GTA) = ACGTATAC`. -/
theorem spell_matches_spec_witness :
    spell gW1 [0, 1] [true, false] =
      some ['A', 'C', 'G', 'T', 'A', 'T', 'A', 'C'] := by
  rw [spell_matches_spec gW1 [0, 1] [true, false] (by decide) (by decide)
    (by decide) (by decide)]
  rfl

/-- A graph whose single node stores a non-nucleotide sequence; the
parser accepts any sequence line, so such graphs are reachable. -/
def gBadNuc : DBG := ⟨3, [⟨['N', 'N', 'N'], 3, [1], []⟩]⟩

/-- C10 counterexample: a non-empty path with equal-length vectors and a
valid node index on which `DBG::spell` still does not return normally —
the reversed step reverse-complements a non-nucleotide sequence, hitting
the fatal error in `reverse_complement`. -/
theorem spell_normal_return_cex :
    spell gBadNuc [0] [false] = none ∧
    ([0] : List Nat) ≠ [] ∧
    ([0] : List Nat).length = [false].length ∧
    (∀ v ∈ ([0] : List Nat), v < gBadNuc.nodes.length) := by
  refine ⟨by decide, by decide, by decide, by decide⟩

/-- C10 amended: `DBG::spell` signals a fatal error whenever the path is
empty or the node-index and orientation vectors differ in length; and
under the precondition that the path is non-empty, the vectors have
equal length, all node indices are valid, and the addressed unitigs
satisfy the data-model invariant (nucleotide strings of length ≥ k),
the error branches are unreachable and `spell` returns normally. -/
theorem spell_guard_amended :
    (∀ (g : DBG) (pn : List Nat) (fw : List Bool),
      pn.length ≠ fw.length ∨ pn = [] → spell g pn fw = none) ∧
    (∀ (g : DBG) (pn : List Nat) (fw : List Bool),
      pn.length = fw.length → pn ≠ [] →
      (∀ v ∈ pn, v < g.nodes.length) →
      (∀ n ∈ g.nodes, wfSeq g.kmer_size n) →
      ∃ s, spell g pn fw = some s) := by
  constructor
  · intro g pn fw h
    rcases h with h | h
    · cases pn with
      | nil =>
        cases fw with
        | nil => exact absurd rfl h
        | cons f fs => simp [spell]
      | cons v vs =>
        cases fw with
        | nil => simp [spell]
        | cons f fs =>
          have h2 : (v :: vs).length ≠ (f :: fs).length := h
          rw [spell, if_pos h2]
    · subst h
      cases fw with
      | nil => rfl
      | cons f fs => simp [spell]
  · intro g pn fw hlen hne hidx hwf
    refine ⟨spec_spell g pn fw, ?_⟩
    apply spell_eq_spec g pn fw hlen hne
    intro v hv
    have h1 : v < g.nodes.length := hidx v hv
    exact ⟨g.nodes[v], by simp [node?, List.getElem?_eq_getElem h1],
      hwf _ (List.getElem_mem h1)⟩

/-- Single-node graph used to exercise the amended spell guard. -/
def gW10 : DBG := ⟨3, [⟨['A', 'C', 'G', 'T', 'A'], 5, [2, 2, 1], []⟩]⟩

/-- C10 witness: a mismatched path is fatal and a well-formed singleton
path returns normally, both on a concrete graph. -/
theorem spell_guard_amended_witness :
    spell gW10 [0] [] = none ∧ ∃ s, spell gW10 [0] [true] = some s :=
  ⟨spell_guard_amended.1 gW10 [0] [] (Or.inl (by decide)),
   spell_guard_amended.2 gW10 [0] [true] (by decide) (by decide) (by decide)
     (by decide)⟩

/-- `DBG::get_counts`: pushes onto `counts`, per step in path order, the
node's abundances as stored when the step is forward, and in reverse
index order otherwise.  `none` models the `std::out_of_range` thrown by
`nodes.at`, and the undefined behaviour of reading `forwards[i]` past
the end when `forwards` is shorter than `path_nodes`. -/
def get_counts (g : DBG) (path_nodes : List Nat) (forwards : List Bool)
    (counts : List Nat) : Option (List Nat) :=
  if forwards.length < path_nodes.length then none
  else
    (mapOpt (fun p => (node? g p.1).map fun n =>
        if p.2 then n.abundances else n.abundances.reverse)
      (path_nodes.zip forwards)).map fun segs => counts ++ segs.flatten

/-- The counts stream as worded by the spec: concatenate per-step
abundance vectors, reversing the vector when the step is reversed. -/
def spec_counts (g : DBG) (pn : List Nat) (fw : List Bool) : List Nat :=
  ((pn.zip fw).map fun p =>
    if p.2 then abundAt g p.1 else (abundAt g p.1).reverse).flatten

/-- Per-node abundance-alignment invariant (spec §3):
`len(abundances) = len(unitig) - k + 1`, stated additively. -/
def wfAbund (k : Nat) (n : node_t) : Prop :=
  n.abundances.length + k = n.unitig.length + 1

instance (k : Nat) (n : node_t) : Decidable (wfAbund k n) := by
  unfold wfAbund; infer_instance

lemma abundAt_eq (g : DBG) (v : Nat) (n : node_t) (hv : node? g v = some n) :
    abundAt g v = n.abundances := by
  simp only [node?] at hv
  simp [abundAt, hv]

lemma mapOpt_counts_eq (g : DBG) (l : List (Nat × Bool))
    (h : ∀ p ∈ l, ∃ n, node? g p.1 = some n) :
    mapOpt (fun p => (node? g p.1).map fun n =>
        if p.2 then n.abundances else n.abundances.reverse) l =
      some (l.map fun p =>
        if p.2 then abundAt g p.1 else (abundAt g p.1).reverse) := by
  induction l with
  | nil => rfl
  | cons p ps ih =>
    obtain ⟨n, hv⟩ := h p (by simp)
    have ha : abundAt g p.1 = n.abundances := abundAt_eq g p.1 n hv
    rw [mapOpt, hv]
    simp [ih (fun q hq => h q (by simp [hq])), ha]

lemma oriented_length (u : List Char) (f : Bool) :
    (oriented u f).length = u.length := by
  cases f <;> simp [oriented, spec_revcomp_length]

lemma spec_ext_length (g : DBG) (v : Nat) (f : Bool) (n : node_t)
    (hv : node? g v = some n) (hk1 : 1 ≤ g.kmer_size)
    (hs : wfSeq g.kmer_size n) (ha : wfAbund g.kmer_size n) :
    (spec_ext g v f).length = (abundAt g v).length := by
  obtain ⟨-, hk, -⟩ := hs
  have hu : unitigAt g v = n.unitig := unitigAt_eq g v n hv
  have hab : abundAt g v = n.abundances := abundAt_eq g v n hv
  unfold wfAbund at ha
  simp only [spec_ext, lastChars, hu, hab, List.length_drop, oriented_length]
  rw [Nat.sub_sub_self (Nat.sub_le _ _)]
  omega

lemma spec_counts_spell_length (g : DBG) (pn : List Nat) (fw : List Bool)
    (hk1 : 1 ≤ g.kmer_size) (hne : pn ≠ []) (hlen : pn.length = fw.length)
    (h : ∀ v ∈ pn, ∃ n, node? g v = some n ∧ wfSeq g.kmer_size n ∧
      wfAbund g.kmer_size n) :
    (spec_counts g pn fw).length + g.kmer_size =
      (spec_spell g pn fw).length + 1 := by
  match pn, fw with
  | [], _ => exact absurd rfl hne
  | v :: vs, [] => simp at hlen
  | v :: vs, f :: fs =>
    obtain ⟨n, hv, hs, ha⟩ := h v (by simp)
    have hu : unitigAt g v = n.unitig := unitigAt_eq g v n hv
    have hab : abundAt g v = n.abundances := abundAt_eq g v n hv
    have hsum : ((vs.zip fs).map fun p =>
          (if p.2 then abundAt g p.1 else (abundAt g p.1).reverse).length).sum =
        ((vs.zip fs).map fun p => (spec_ext g p.1 p.2).length).sum := by
      congr 1
      apply List.map_congr_left
      intro p hp
      obtain ⟨m, hm, hsm, ham⟩ := h p.1 (by simp [(List.of_mem_zip hp).1])
      have he := spec_ext_length g p.1 p.2 m hm hk1 hsm ham
      rw [he]
      cases p.2 <;> simp
    have hseg0 : (if f then abundAt g v else (abundAt g v).reverse).length =
        n.abundances.length := by
      cases f <;> simp [hab]
    unfold wfAbund at ha
    simp only [spec_counts, spec_spell, List.zip_cons_cons, List.map_cons,
      List.flatten_cons, List.length_append, List.length_flatten,
      List.map_map, Function.comp_def, oriented_length, hu, hseg0]
    rw [show ((vs.zip fs).map fun p =>
        (if p.2 then abundAt g p.1 else (abundAt g p.1).reverse).length).sum =
      ((vs.zip fs).map fun p => (spec_ext g p.1 p.2).length).sum from hsum]
    omega

lemma get_counts_eq (g : DBG) (pn : List Nat) (fw : List Bool) (cs : List Nat)
    (hlen : pn.length = fw.length)
    (hidx : ∀ v ∈ pn, ∃ n, node? g v = some n) :
    get_counts g pn fw cs = some (cs ++ spec_counts g pn fw) := by
  have h1 : ¬ (fw.length < pn.length) := by omega
  rw [get_counts, if_neg h1,
    mapOpt_counts_eq g (pn.zip fw) (fun p hp => hidx p.1 (List.of_mem_zip hp).1)]
  rfl

/-- C2: for every non-empty path of `(node_index, forward)` steps (with
equal-length vectors, valid indices, and the data-model invariants),
`DBG::get_counts` appends, per step in path order, the node's abundance
vector as stored when `forward` is true and reversed when false; and
under the per-node invariant `len(abundances) = len(unitig) - k + 1`,
the appended count vector has length `len(spell(path)) - k + 1`. -/
theorem get_counts_matches_spec (g : DBG) (pn : List Nat) (fw : List Bool)
    (cs : List Nat) (hk1 : 1 ≤ g.kmer_size)
    (hlen : pn.length = fw.length) (hne : pn ≠ [])
    (hidx : ∀ v ∈ pn, v < g.nodes.length)
    (hwf : ∀ n ∈ g.nodes, wfSeq g.kmer_size n ∧ wfAbund g.kmer_size n) :
    get_counts g pn fw cs = some (cs ++ spec_counts g pn fw) ∧
    ∃ s, spell g pn fw = some s ∧
      (spec_counts g pn fw).length = s.length + 1 - g.kmer_size := by
  have hval : ∀ v ∈ pn, ∃ n, node? g v = some n ∧ wfSeq g.kmer_size n ∧
      wfAbund g.kmer_size n := by
    intro v hv
    have h1 : v < g.nodes.length := hidx v hv
    exact ⟨g.nodes[v], by simp [node?, List.getElem?_eq_getElem h1],
      hwf _ (List.getElem_mem h1)⟩
  refine ⟨get_counts_eq g pn fw cs hlen
    (fun v hv => (hval v hv).imp fun n hn => hn.1), ?_⟩
  refine ⟨spec_spell g pn fw, spell_eq_spec g pn fw hlen hne
    (fun v hv => (hval v hv).imp fun n hn => ⟨hn.1, hn.2.1⟩), ?_⟩
  have := spec_counts_spell_length g pn fw hk1 hne hlen hval
  omega

/-- Two-node forward chain with a (k-1)-overlap, k = 3. -/
def gW2 : DBG :=
  ⟨3, [⟨['A', 'C', 'G', 'T', 'A'], 5, [2, 2, 1], [⟨true, 1, true⟩]⟩,
       ⟨['T', 'A', 'C'], 3, [1], []⟩]⟩

/-- C2 witness: the path `[(0,+),(1,+)]` on `gW2` yields counts
`2 2 1 1`, and `4 = len(ACGTAC) - 3 + 1`. -/
theorem get_counts_matches_spec_witness :
    get_counts gW2 [0, 1] [true, true] [] = some [2, 2, 1, 1] ∧
    spell gW2 [0, 1] [true, true] =
      some ['A', 'C', 'G', 'T', 'A', 'C'] := by
  have h := get_counts_matches_spec gW2 [0, 1] [true, true] [] (by decide)
    (by decide) (by decide) (by decide) (by decide)
  exact ⟨h.1.trans (by decide), by decide⟩

/-- The pair-checking loop of `DBG::check_path_consistency`: for each
consecutive pair the node's arcs are scanned for one with matching
source orientation and successor (the arc's `to_forward` is not
inspected).  `none` models the `std::out_of_range` from `nodes.at`. -/
def checkPairs (g : DBG) : List (Nat × Bool) → Option Bool
  | (v, f) :: (w, fw) :: rest =>
    (node? g v).bind fun n =>
      if n.arcs.any fun a => a.forward == f && a.successor == w then
        checkPairs g ((w, fw) :: rest)
      else some false
  | _ => some true

/-- `DBG::check_path_consistency`: `false` when the two vectors differ
in length; on an empty path the `size_t` loop bound `size() - 1` wraps
around and the loop reads `path_nodes[0]` out of bounds (undefined
behaviour, modelled as `none`); otherwise the pair scan. -/
def check_path_consistency (g : DBG) (path_nodes : List Nat)
    (forwards : List Bool) : Option Bool :=
  if path_nodes.length ≠ forwards.length then some false
  else
    match path_nodes with
    | [] => none
    | _ :: _ => checkPairs g (path_nodes.zip forwards)

lemma arcsAt_eq (g : DBG) (v : Nat) (n : node_t) (hv : node? g v = some n) :
    arcsAt g v = n.arcs := by
  simp only [node?] at hv
  simp [arcsAt, hv]

lemma any_arc_iff (arcs : List arc_t) (f : Bool) (w : Nat) :
    (arcs.any fun a => a.forward == f && a.successor == w) = true ↔
      ∃ a ∈ arcs, a.forward = f ∧ a.successor = w := by
  simp [List.any_eq_true, Bool.and_eq_true, beq_iff_eq]

lemma checkPairs_iff (g : DBG) (l : List (Nat × Bool)) :
    (∀ p ∈ l, p.1 < g.nodes.length) →
    (checkPairs g l = some true ↔
      l.Chain' fun p q =>
        ∃ a ∈ arcsAt g p.1, a.forward = p.2 ∧ a.successor = q.1) := by
  induction l with
  | nil => intro _; simp [checkPairs]
  | cons p l ih =>
    intro hidx
    cases l with
    | nil =>
      obtain ⟨v, f⟩ := p
      simp [checkPairs]
    | cons q rest =>
      obtain ⟨v, f⟩ := p
      obtain ⟨w, fw2⟩ := q
      have hv : v < g.nodes.length := hidx (v, f) (by simp)
      have hn : node? g v = some g.nodes[v] := by
        simp [node?, List.getElem?_eq_getElem hv]
      have harcs : arcsAt g v = (g.nodes[v]).arcs := arcsAt_eq g v _ hn
      have ih2 := ih (fun r hr => hidx r (by simp [hr]))
      rw [List.chain'_cons]
      by_cases hany :
          ((g.nodes[v]).arcs.any fun a => a.forward == f && a.successor == w) = true
      · rw [checkPairs, hn, Option.some_bind, if_pos hany, ih2]
        have hR : ∃ a ∈ arcsAt g v, a.forward = f ∧ a.successor = w := by
          rw [harcs]
          exact (any_arc_iff _ _ _).mp hany
        simp only [hR, true_and]
      · rw [checkPairs, hn, Option.some_bind, if_neg hany]
        have hR : ¬ ∃ a ∈ arcsAt g v, a.forward = f ∧ a.successor = w := by
          rw [harcs]
          exact fun hc => hany ((any_arc_iff _ _ _).mpr hc)
        simp [hR]

/-- Graph whose only arc is `(0,+) → (1,-)` (note `to_forward = false`). -/
def gC5 : DBG :=
  ⟨3, [⟨['A', 'C', 'G'], 3, [1], [⟨true, 1, false⟩]⟩,
       ⟨['C', 'G', 'T'], 3, [1], []⟩]⟩

/-- C5 counterexample: on `gC5`, `check_path_consistency` accepts the
path `[(0,+),(1,+)]` although node 0 has no arc with `forward = true`,
`successor = 1` and `to_forward = true`: the code never inspects
`to_forward`, so the claimed iff fails. -/
theorem check_path_ignores_to_forward_cex :
    check_path_consistency gC5 [0, 1] [true, true] = some true ∧
    ¬ ∃ a ∈ arcsAt gC5 0,
        a.forward = true ∧ a.successor = 1 ∧ a.to_forward = true := by
  exact ⟨by decide, by decide⟩

/-- C5 amended: for non-empty equal-length vectors over valid node
indices, `DBG::check_path_consistency` returns true iff every
consecutive pair of steps `(v, f_v), (w, f_w)` is backed by an outgoing
arc of `v` with `forward = f_v` and `successor = w`; the arc's
`to_forward` component is not checked. -/
theorem check_path_consistency_amended (g : DBG) (pn : List Nat)
    (fw : List Bool) (hlen : pn.length = fw.length) (hne : pn ≠ [])
    (hidx : ∀ v ∈ pn, v < g.nodes.length) :
    check_path_consistency g pn fw = some true ↔
      (pn.zip fw).Chain' fun p q =>
        ∃ a ∈ arcsAt g p.1, a.forward = p.2 ∧ a.successor = q.1 := by
  cases pn with
  | nil => exact absurd rfl hne
  | cons v vs =>
    rw [check_path_consistency, if_neg (by simp [hlen])]
    exact checkPairs_iff g ((v :: vs).zip fw)
      (fun p hp => hidx p.1 (List.of_mem_zip hp).1)

/-- Graph with a fully consistent arc `(0,+) → (1,+)`. -/
def gW5 : DBG :=
  ⟨3, [⟨['A', 'C', 'G'], 3, [1], [⟨true, 1, true⟩]⟩,
       ⟨['C', 'G', 'T'], 3, [1], []⟩]⟩

/-- C5 witness: the amended equivalence evaluated on a concrete
consistent path. -/
theorem check_path_consistency_amended_witness :
    check_path_consistency gW5 [0, 1] [true, true] = some true :=
  (check_path_consistency_amended gW5 [0, 1] [true, true] (by decide)
    (by decide) (by decide)).mpr (by
      refine List.chain'_cons.mpr ⟨⟨⟨true, 1, true⟩, ?_, rfl, rfl⟩, ?_⟩
      · decide
      · simp)

/-- The arc-filtering loop of `DBG::get_nodes_from`: skips arcs whose
successor is masked; `mask.at(arc.successor)` throws (`none`) when a
successor index is outside the mask. -/
def collectArcs (mask : List Bool) : List arc_t → Option (List arc_t)
  | [] => some []
  | a :: rest =>
    (mask[a.successor]?).bind fun m =>
      (collectArcs mask rest).map fun tail =>
        if m then tail else a :: tail

/-- `DBG::get_nodes_from`: clears `to_nodes` and `to_forwards` on entry,
then for each unmasked arc pushes onto all three vectors; `forwards` is
NOT cleared, so its pre-call contents remain in front.  The result is
the post-call contents `(forwards, to_nodes, to_forwards)`. -/
def get_nodes_from (g : DBG) (node : Nat) (forwards : List Bool)
    (to_nodes : List Nat) (to_forwards : List Bool) (mask : List Bool) :
    Option (List Bool × List Nat × List Bool) :=
  (node? g node).bind fun n =>
    (collectArcs mask n.arcs).map fun kept =>
      (forwards ++ kept.map arc_t.forward,
       kept.map arc_t.successor,
       kept.map arc_t.to_forward)

/-- C9: on every successful call, `DBG::get_nodes_from` repopulates
`to_nodes` and `to_forwards` from scratch (the result is the same as
with empty inputs) but only appends to `forwards`, whose pre-call
contents stay as a prefix; consequently the three output vectors have
equal length (entry `i` of each describing the `i`-th unmasked outgoing
arc) exactly when `forwards` was empty at call time. -/
theorem get_nodes_from_append (g : DBG) (v : Nat) (fwds : List Bool)
    (tn : List Nat) (tf : List Bool) (mask : List Bool)
    (f' : List Bool) (tn' : List Nat) (tf' : List Bool)
    (h : get_nodes_from g v fwds tn tf mask = some (f', tn', tf')) :
    tn'.length = tf'.length ∧
    f'.take fwds.length = fwds ∧
    get_nodes_from g v [] tn tf mask = some (f'.drop fwds.length, tn', tf') ∧
    (f'.length = tn'.length ↔ fwds = []) := by
  unfold get_nodes_from at h ⊢
  cases hn : node? g v with
  | none => rw [hn] at h; simp at h
  | some n =>
    rw [hn] at h
    simp only [Option.some_bind] at h ⊢
    cases hk : collectArcs mask n.arcs with
    | none => rw [hk] at h; simp at h
    | some kept =>
      rw [hk] at h
      simp only [Option.map_some'] at h ⊢
      have h2 := Option.some.inj h
      simp only [Prod.mk.injEq] at h2
      obtain ⟨hf, htn, htf⟩ := h2
      subst hf htn htf
      refine ⟨by simp, List.take_left fwds _, ?_, ?_⟩
      · rw [List.drop_left, List.nil_append]
      · simp only [List.length_append, List.length_map]
        constructor
        · intro hx
          exact List.length_eq_zero.mp (by omega)
        · intro hx
          subst hx
          simp

/-- Two-node graph with two outgoing arcs at node 0. -/
def gW9 : DBG :=
  ⟨3, [⟨['A', 'C', 'G'], 3, [1], [⟨true, 1, true⟩, ⟨false, 0, true⟩]⟩,
       ⟨['C', 'G', 'T'], 3, [1], []⟩]⟩

/-- C9 witness: calling with pre-filled `forwards = [true]` leaves that
entry as a prefix and the output lengths disagree; the index alignment
holds only for the empty-`forwards` call. -/
theorem get_nodes_from_append_witness :
    ([true, true, false] : List Bool).take 1 = [true] ∧
    get_nodes_from gW9 0 [] [] [] [false, false] =
      some ([true, false], [1, 0], [true, true]) ∧
    (([true, true, false] : List Bool).length = ([1, 0] : List Nat).length ↔
      ([true] : List Bool) = []) := by
  have h := get_nodes_from_append gW9 0 [true] [] [] [false, false]
    [true, true, false] [1, 0] [true, true] (by decide)
  exact ⟨h.2.1, by decide, h.2.2.2⟩

/-- Result of the `-k` option handler in `parse_cli` (ustar.cpp): either
the parsed value is stored, or the process exits with the given code. -/
inductive kmer_cli_result where
  | ok : Int → kmer_cli_result
  | exited : Nat → kmer_cli_result
  deriving DecidableEq, Repr

/-- POSIX/glibc `EXIT_SUCCESS`. -/
def EXIT_SUCCESS : Nat := 0

/-- POSIX/glibc `EXIT_FAILURE`. -/
def EXIT_FAILURE : Nat := 1

/-- The `-k` branch of `parse_cli`: non-positive values exit with
`EXIT_FAILURE`; even values print the self-loop warning and exit with
`EXIT_SUCCESS`; odd positive values are accepted. -/
def parse_cli_kmer_case (k : Int) : kmer_cli_result :=
  if k ≤ 0 then kmer_cli_result.exited EXIT_FAILURE
  else if k % 2 == 0 then kmer_cli_result.exited EXIT_SUCCESS
  else kmer_cli_result.ok k

/-- C3 (code bug): a non-positive or even `kmer_size` is indeed fatal
(the process terminates in `parse_cli`), and the non-positive case exits
with the non-zero `EXIT_FAILURE`; but the even case — here evaluated at
the failing input `-k 2` — exits with code 0 (`EXIT_SUCCESS`), not the
non-zero exit code the spec requires for fatal configuration errors. -/
theorem kmer_even_exits_zero :
    parse_cli_kmer_case 2 = kmer_cli_result.exited 0 ∧
    parse_cli_kmer_case 0 = kmer_cli_result.exited 1 ∧
    parse_cli_kmer_case (-5) = kmer_cli_result.exited 1 := by
  exact ⟨by decide, by decide, by decide⟩

/-- Decimal digits of a natural number, as written by `operator<<`. -/
def natToChars (n : Nat) : List Char := Nat.toDigits 10 n

/-- One arc as written by `DBG::to_bcalm_file`:
`L:<s1>:<succ>:<s2>` followed by a space. -/
def renderArc (a : arc_t) : List Char :=
  "L:".toList ++ [if a.forward then '+' else '-'] ++ [':'] ++
    natToChars a.successor ++ [':'] ++
    [if a.to_forward then '+' else '-'] ++ [' ']

/-- One node record as written by `DBG::to_bcalm_file`: header line
`>id LN:i:length ab:Z:` then each abundance followed by a space, then
the arcs, then a newline and the unitig line.  (Note `ab:Z:` is written
with no following space, so it glues onto the first abundance.) -/
def renderNode (id : Nat) (n : node_t) : List Char :=
  ['>'] ++ natToChars id ++ " LN:i:".toList ++ natToChars n.length ++
  " ab:Z:".toList ++ (n.abundances.map (fun ab => natToChars ab ++ [' '])).flatten ++
  (n.arcs.map renderArc).flatten ++ ['\n'] ++ n.unitig ++ ['\n']

/-- The node loop of `DBG::to_bcalm_file`, with the running `id`. -/
def renderNodes (id : Nat) : List node_t → List Char
  | [] => []
  | n :: rest => renderNode id n ++ renderNodes (id + 1) rest

/-- `DBG::to_bcalm_file`: the canonical standard-dialect serialization
of the in-memory graph (as the character stream written to the file). -/
def to_bcalm_render (g : DBG) : List Char := renderNodes 0 g.nodes

/-- Whitespace for `operator>>` token extraction. -/
def isWS (c : Char) : Bool := c == ' ' || c == '\n' || c == '\t' || c == '\r'

/-- Whitespace tokenizer (accumulator holds the current token
reversed), modelling repeated `stream >> token`. -/
def tokenizeAux : List Char → List Char → List (List Char)
  | [], cur => if cur.isEmpty then [] else [cur.reverse]
  | c :: rest, cur =>
    if isWS c then
      if cur.isEmpty then tokenizeAux rest []
      else cur.reverse :: tokenizeAux rest []
    else tokenizeAux rest (c :: cur)

/-- Whitespace tokens of a character stream. -/
def tokenize (s : List Char) : List (List Char) := tokenizeAux s []

/-- The comparison loop of `DBG::validate`:
`while(bcalm >> tok1 && this >> tok2) if(tok1 != tok2) return false;`
— the loop exits with `true` as soon as either stream runs out. -/
def tokenLoopEq : List (List Char) → List (List Char) → Bool
  | t1 :: r1, t2 :: r2 => if t1 = t2 then tokenLoopEq r1 r2 else false
  | _, _ => true

/-- `DBG::validate`: serialize the graph canonically and compare the
input file's whitespace tokens against the serialization's with the
pairwise loop. -/
def validate (g : DBG) (inputTokens : List (List Char)) : Bool :=
  tokenLoopEq inputTokens (tokenize (to_bcalm_render g))

lemma tokenLoopEq_iff (t1 t2 : List (List Char)) :
    tokenLoopEq t1 t2 = true ↔ t1.take t2.length = t2.take t1.length := by
  induction t1 generalizing t2 with
  | nil => simp [tokenLoopEq]
  | cons a r1 ih =>
    cases t2 with
    | nil => simp [tokenLoopEq]
    | cons b r2 =>
      rw [tokenLoopEq]
      by_cases hab : a = b
      · subst hab
        simp [ih r2]
      · simp [hab]

/-- Single-node graph for the round-trip counterexample. -/
def gC6 : DBG := ⟨3, [⟨['A', 'C', 'G', 'T', 'A'], 5, [2, 2, 1], []⟩]⟩

/-- C6 counterexample: an input whose token stream strictly extends the
canonical serialization's token stream — the two token sequences are
different (the input has a token the serialization lacks), yet
`DBG::validate` returns true, because its loop stops at the end of the
shorter stream. -/
theorem validate_prefix_cex :
    validate gC6 (tokenize (to_bcalm_render gC6) ++ [['X']]) = true ∧
    tokenize (to_bcalm_render gC6) ++ [['X']] ≠
      tokenize (to_bcalm_render gC6) := by
  exact ⟨by decide, by decide⟩

/-- C6 amended: `DBG::validate` serializes the in-memory graph to the
canonical standard dialect and returns true iff the input's whitespace
tokens agree with the serialization's tokens up to the length of the
shorter stream (equivalently, one token sequence is an initial segment
of the other); when one stream has extra trailing tokens the result is
still true. -/
theorem validate_common_prefix (g : DBG) (toks : List (List Char)) :
    validate g toks = true ↔
      toks.take (tokenize (to_bcalm_render g)).length =
        (tokenize (to_bcalm_render g)).take toks.length :=
  tokenLoopEq_iff toks (tokenize (to_bcalm_render g))

/-- `substr(pos)` on a string: the suffix from `pos`, throwing
(`none`) when `pos` exceeds the length. -/
def substrFrom (s : List Char) (pos : Nat) : Option (List Char) :=
  if pos ≤ s.length then some (s.drop pos) else none

/-- The `size_t` expression `length - kmer_size + 1` of
`DBG::overlaps`, with wrap-around below zero. -/
def overlapPos (len k : Nat) : Nat :=
  ((len + SIZE_T_CARD - k) % SIZE_T_CARD + 1) % SIZE_T_CARD

/-- `DBG::overlaps`: the suffix side of the source node (last `k-1`
characters, or reverse complement of the first `k-1` when exiting the
minus side) must equal the prefix side of the successor (first `k-1`
characters, or reverse complement of the last `k-1`).  The successor is
read with unchecked `nodes[...]` — out of range is undefined behaviour,
modelled as `none`. -/
def overlaps (g : DBG) (n : node_t) (a : arc_t) : Option Bool :=
  (if a.forward then
      substrFrom n.unitig (overlapPos n.unitig.length g.kmer_size)
    else reverse_complement (n.unitig.take (g.kmer_size - 1))).bind fun u1 =>
  (node? g a.successor).bind fun m =>
  (if a.to_forward then some (m.unitig.take (g.kmer_size - 1))
    else (substrFrom m.unitig
        (overlapPos m.unitig.length g.kmer_size)).bind
      reverse_complement).bind fun u2 =>
  some (decide (u1 = u2))

/-- Arc loop of `DBG::verify_overlaps` for one node (early exit on the
first failing arc). -/
def arcsOverlap (g : DBG) (n : node_t) : List arc_t → Option Bool
  | [] => some true
  | a :: rest =>
    (overlaps g n a).bind fun ok =>
      if ok then arcsOverlap g n rest else some false

/-- Node loop of `DBG::verify_overlaps`. -/
def nodesOverlap (g : DBG) : List node_t → Option Bool
  | [] => some true
  | n :: rest =>
    (arcsOverlap g n n.arcs).bind fun ok =>
      if ok then nodesOverlap g rest else some false

/-- `DBG::verify_overlaps`: every arc of every node satisfies the
overlap invariant. -/
def verify_overlaps (g : DBG) : Option Bool := nodesOverlap g g.nodes

/-- `DBG::verify_input`: runs the overlap verification, then the
round-trip validation, prints a message for each, and returns the
conjunction. -/
def verify_input (g : DBG) (inputTokens : List (List Char)) : Option Bool :=
  (verify_overlaps g).map fun ovl => ovl && validate g inputTokens

/-- Whether `process_single_file` reaches SPSS construction and output
emission for the current input, or returns early. -/
inductive outcome_t where
  | skipped : outcome_t
  | produced : outcome_t
  deriving DecidableEq, Repr

/-- The debug-verification gate of `process_single_file` (ustar.cpp):
with debug enabled, a failed `verify_input` prints `Bad input file` and
returns from `process_single_file` before the SPSS is built, so that
input is skipped; otherwise processing continues and the outputs are
produced. -/
def process_debug_gate (g : DBG) (inputTokens : List (List Char))
    (debug : Bool) : Option outcome_t :=
  if debug then
    (verify_input g inputTokens).map fun ok =>
      if ok then outcome_t.produced else outcome_t.skipped
  else some outcome_t.produced

/-- Single node with a self-arc `(+,0,+)` whose ends do not overlap
(`TA` vs `AC`), so overlap verification fails. -/
def gC4 : DBG := ⟨3, [⟨['A', 'C', 'G', 'T', 'A'], 5, [2, 2, 1],
  [⟨true, 0, true⟩]⟩]⟩

/-- C4 counterexample: with debug enabled and `verify_input` failing on
`gC4`, `process_single_file` does NOT proceed — the input is skipped
and no SPSS or outputs are produced for it, contrary to the claim that
construction and processing proceed regardless. -/
theorem verify_failure_skips_cex :
    verify_input gC4 [] = some false ∧
    process_debug_gate gC4 [] true = some outcome_t.skipped ∧
    process_debug_gate gC4 [] true ≠ some outcome_t.produced := by
  exact ⟨by decide, by decide, by decide⟩

/-- C4 amended: the debug verification failure is non-fatal to the
process (the driver prints a diagnostic and, in batch mode, later files
still run), but it is not output-preserving: with debug enabled a
failed `verify_input` makes `process_single_file` return early and skip
that input's SPSS and outputs; outputs are produced when verification
passes or when debug is disabled. -/
theorem verify_failure_skips (g : DBG) (toks : List (List Char)) :
    (verify_input g toks = some false →
      process_debug_gate g toks true = some outcome_t.skipped) ∧
    (verify_input g toks = some true →
      process_debug_gate g toks true = some outcome_t.produced) ∧
    process_debug_gate g toks false = some outcome_t.produced := by
  refine ⟨fun h => ?_, fun h => ?_, rfl⟩
  · simp [process_debug_gate, h]
  · simp [process_debug_gate, h]

/-- Single isolated node: overlap verification is vacuous and the
canonical serialization round-trips. -/
def gW4 : DBG := ⟨3, [⟨['A', 'C', 'G', 'T', 'A'], 5, [2, 2, 1], []⟩]⟩

/-- C4 witness: the amended behaviour evaluated concretely — a failing
graph is skipped, a passing graph is produced. -/
theorem verify_failure_skips_witness :
    process_debug_gate gC4 [] true = some outcome_t.skipped ∧
    process_debug_gate gW4 (tokenize (to_bcalm_render gW4)) true =
      some outcome_t.produced :=
  ⟨(verify_failure_skips gC4 []).1 (by decide),
   (verify_failure_skips gW4 (tokenize (to_bcalm_render gW4))).2.1
     (by decide)⟩

/-- The `(uint32_t) node.average_abundance` cast of
`parse_bcalm_file`: truncation toward zero of the parsed double
(modelled as a rational), i.e. the floor for a nonnegative in-range
average. -/
def cast_u32 (avg : ℚ) : Nat := (Rat.floor avg).toNat

/-- Alternative-dialect (`ka:f:`) node finalization in
`parse_bcalm_file`, run after the sequence line is read: `length`
becomes the sequence length, and `abundances` becomes the cast average
repeated once per k-mer, where the k-mer count is the `size_t`
expression `unitig.size() - kmer_size + 1` (wrapping below zero). -/
def alt_finalize (k : Nat) (avg : ℚ) (arcs : List arc_t)
    (seq : List Char) : node_t :=
  ⟨seq, seq.length,
   List.replicate (((seq.length + SIZE_T_CARD - k) % SIZE_T_CARD + 1) %
     SIZE_T_CARD) (cast_u32 avg),
   arcs⟩

/-- C8: for every record parsed in the alternative (`ka:f:`) dialect
with average abundance `AVG ≥ 0` and sequence of length `len ≥ k`, the
node's abundances vector is synthesized as `floor(AVG)` repeated
`len - k + 1` times once the sequence line is read, and the node's
length is the sequence length. -/
theorem alt_abundance_synthesis (k : Nat) (avg : ℚ) (arcs : List arc_t)
    (seq : List Char) (hk1 : 1 ≤ k) (hlen : k ≤ seq.length)
    (hsz : seq.length < SIZE_T_CARD) (havg : 0 ≤ avg) :
    (alt_finalize k avg arcs seq).abundances =
      List.replicate (seq.length - k + 1) (Int.toNat (Rat.floor avg)) ∧
    (alt_finalize k avg arcs seq).length = seq.length := by
  refine ⟨?_, rfl⟩
  unfold alt_finalize cast_u32
  have h1 : seq.length + SIZE_T_CARD - k = (seq.length - k) + SIZE_T_CARD := by
    omega
  rw [h1, Nat.add_mod_right,
    Nat.mod_eq_of_lt (show seq.length - k < SIZE_T_CARD by omega),
    Nat.mod_eq_of_lt (show seq.length - k + 1 < SIZE_T_CARD by omega)]

/-- The spec's seven-character alternative-dialect sequence. -/
def sevenSeq : List Char := ['A', 'C', 'G', 'T', 'A', 'C', 'G']

/-- C8 witness: with k = 3, AVG = 5.0 and the 7-character sequence, the
synthesized abundances are `[5,5,5,5,5]` and the length is 7. -/
theorem alt_abundance_synthesis_witness :
    (alt_finalize 3 5 [] sevenSeq).abundances = [5, 5, 5, 5, 5] ∧
    (alt_finalize 3 5 [] sevenSeq).length = 7 := by
  have h := alt_abundance_synthesis 3 5 [] sevenSeq (by decide) (by decide)
    (by decide) (by norm_num)
  refine ⟨h.1.trans ?_, h.2⟩
  norm_num [sevenSeq]
  rfl
